import Mathlib

/-!
Verification of the adaptive frame-interpolation scheduler in
`upsampling/utils/upsampler.py` (class `Upsampler`).

The Python code is shallowly embedded over exact rationals:

* a flow field (`F_0_1`, `F_1_0`) is the flattened list of its per-pixel
  2-channel displacement vectors, `List (ℚ × ℚ)`;
* `flow_mag_max_sq` is the maximum over all pixels of the *squared* per-pixel
  L2 norm (`F.pow(2).sum(1)` followed by the pixel max); the source applies
  the elementwise square root (`.pow(.5)`) before taking the max, and since
  the square root is monotone, `ceil (max √·) = ceilSqrt (max ·)`, where
  `ceilSqrt q` is the least natural `n` with `q ≤ n ^ 2`.  The theorem for
  the count law carries the Galois characterisation of `ceilSqrt`, so that
  `flow_mag_max_ceil` is provably `⌈m⌉` for `m` the maximal L2 magnitude;
* an output frame records its timestamp and which loop iteration produced it
  (tag `0` is the boundary frame appended before the intermediates, tag `i`
  is the intermediate produced at `t = i / N`); the pixel payloads come from
  the opaque external networks and play no role in the scheduling claims;
* `np.argsort` / the reordering of `total_frames` by timestamp is embedded
  as a stable insertion sort on the timestamp key.
-/

/-- Least natural number `n` with `q ≤ n ^ 2`, computed by a bounded descent;
`ceilSqrtAux q f` is correct whenever `q ≤ f ^ 2`. -/
def ceilSqrtAux (q : ℚ) : ℕ → ℕ
  | 0 => 0
  | n + 1 => if q ≤ ((n : ℚ)) ^ 2 then ceilSqrtAux q n else n + 1

/-- Ceiling of the square root of a rational, as a natural number: the least
`n : ℕ` with `q ≤ n ^ 2`.  This is `⌈√q⌉` for `q ≥ 0` (and `0` for `q ≤ 0`);
the fuel `q.num.toNat` is always large enough. -/
def ceilSqrt (q : ℚ) : ℕ := ceilSqrtAux q q.num.toNat

lemma ceilSqrtAux_self_le (q : ℚ) (f : ℕ) (h : q ≤ (f : ℚ) ^ 2) :
    q ≤ ((ceilSqrtAux q f : ℕ) : ℚ) ^ 2 := by
  induction f with
  | zero => simpa [ceilSqrtAux] using h
  | succ n ih =>
      by_cases hq : q ≤ ((n : ℚ)) ^ 2
      · simpa [ceilSqrtAux, hq] using ih hq
      · simpa [ceilSqrtAux, hq] using h

lemma ceilSqrtAux_le (q : ℚ) (f k : ℕ) (hk : q ≤ (k : ℚ) ^ 2) :
    ceilSqrtAux q f ≤ k := by
  induction f with
  | zero => exact Nat.zero_le k
  | succ n ih =>
      by_cases hq : q ≤ ((n : ℚ)) ^ 2
      · simpa [ceilSqrtAux, hq] using ih
      · simp only [ceilSqrtAux, hq, if_false]
        by_contra hlt
        push_neg at hlt
        have hkn : k ≤ n := Nat.lt_succ_iff.mp hlt
        have : (k : ℚ) ^ 2 ≤ ((n : ℚ)) ^ 2 := by
          have : (k : ℚ) ≤ (n : ℚ) := by exact_mod_cast hkn
          exact pow_le_pow_left₀ (by positivity) this 2
        exact hq (le_trans hk this)

lemma le_num_toNat_sq (q : ℚ) : q ≤ ((q.num.toNat : ℕ) : ℚ) ^ 2 := by
  rcases le_or_lt q 0 with hq | hq
  · exact le_trans hq (by positivity)
  · have hnum : 0 < q.num := Rat.num_pos.mpr hq
    have hcast : ((q.num.toNat : ℕ) : ℚ) = (q.num : ℚ) := by
      exact_mod_cast congrArg (fun z : ℤ => (z : ℚ)) (Int.toNat_of_nonneg hnum.le)
    rw [hcast]
    have hle : q ≤ (q.num : ℚ) := by
      conv_lhs => rw [← Rat.num_div_den q]
      exact div_le_self (by exact_mod_cast hnum.le) (by exact_mod_cast q.pos)
    have hone : (1 : ℚ) ≤ (q.num : ℚ) := by exact_mod_cast hnum
    exact le_trans hle (le_self_pow₀ hone (by norm_num))

/-- Galois characterisation: `ceilSqrt q` is the least `n` with `q ≤ n ^ 2`,
i.e. the ceiling of the (real) square root of `q`. -/
lemma ceilSqrt_le_iff (q : ℚ) (n : ℕ) : ceilSqrt q ≤ n ↔ q ≤ (n : ℚ) ^ 2 := by
  constructor
  · intro h
    have h1 := ceilSqrtAux_self_le q q.num.toNat (le_num_toNat_sq q)
    refine le_trans h1 ?_
    have : ((ceilSqrt q : ℕ) : ℚ) ≤ (n : ℚ) := by exact_mod_cast h
    exact pow_le_pow_left₀ (by positivity) this 2
  · intro h
    exact ceilSqrtAux_le q q.num.toNat n h

/-- Squared L2 norm of one pixel of a 2-channel flow field:
`F.pow(2).sum(1)` at that pixel. -/
def magSq (p : ℚ × ℚ) : ℚ := p.1 * p.1 + p.2 * p.2

/-- Maximum over all pixels of the squared per-pixel flow magnitude.  The
source computes `F.pow(2).sum(1).pow(.5).view(B,-1).max(-1)`; we keep the
squares and defer the square root to `ceilSqrt`. -/
def flow_mag_max_sq (F : List (ℚ × ℚ)) : ℚ := (F.map magSq).foldr max 0

/-- The intermediate-frame bound `N` of `Upsampler._upsample_adaptive`:
`torch.ceil(max(flow_mag_0_1_max, flow_mag_1_0_max)).int()`, i.e. the ceiling
of the largest per-pixel L2 flow magnitude over both directions. -/
def flow_mag_max_ceil (F01 F10 : List (ℚ × ℚ)) : ℕ :=
  ceilSqrt (max (flow_mag_max_sq F01) (flow_mag_max_sq F10))

/-- One scheduled output frame: its absolute timestamp together with the index
of the loop iteration that produced it (`0` for the boundary frame appended by
`upsample_sequence`, `i ∈ [1, N)` for the intermediate at `t = i / N`).  The
pixel payload is produced by the opaque networks and is irrelevant to the
scheduling claims. -/
structure OutFrame where
  time : ℚ
  tag : ℕ
deriving DecidableEq

/-- The intermediate frames appended by the loop
`for intermediateIndex in range(1, flow_mag_max): ...` of
`Upsampler._upsample_adaptive`, with `t = intermediateIndex / flow_mag_max`
and timestamp `time0 + t * (time1 - time0)`. -/
def upsample_adaptive (F01 F10 : List (ℚ × ℚ)) (time0 time1 : ℚ) : List OutFrame :=
  (List.range' 1 (flow_mag_max_ceil F01 F10 - 1)).map fun (i : ℕ) =>
    { time := time0 + ((i : ℚ) / (flow_mag_max_ceil F01 F10 : ℚ)) * (time1 - time0)
      tag := i }

/-- Reordering of the collected frames by ascending timestamp
(`np.argsort(timestamps)` followed by the two reindexings), embedded as a
stable insertion sort keyed on the timestamp. -/
def sortFrames (l : List OutFrame) : List OutFrame :=
  List.insertionSort (fun a b => a.time ≤ b.time) l

/-- Per-pair portion of `Upsampler.upsample_sequence`: the boundary frame
`(t0, tag 0)` is appended first, then the adaptive intermediates, and the
combined list is sorted by timestamp. -/
def pair_frames (F01 F10 : List (ℚ × ℚ)) (t0 t1 : ℚ) : List OutFrame :=
  sortFrames ({ time := t0, tag := 0 } :: upsample_adaptive F01 F10 t0 t1)

lemma length_upsample_adaptive (F01 F10 : List (ℚ × ℚ)) (t0 t1 : ℚ) :
    (upsample_adaptive F01 F10 t0 t1).length = flow_mag_max_ceil F01 F10 - 1 := by
  rw [upsample_adaptive, List.length_map, List.length_range']

lemma length_pair_frames (F01 F10 : List (ℚ × ℚ)) (t0 t1 : ℚ) :
    (pair_frames F01 F10 t0 t1).length = (flow_mag_max_ceil F01 F10 - 1) + 1 := by
  rw [pair_frames, sortFrames, List.length_insertionSort, List.length_cons,
    length_upsample_adaptive]

/-- Concrete flow field used to instantiate the hypotheses of several claims:
a single pixel with displacement `(3, 0)`, of L2 magnitude `3`. -/
def flowW3 : List (ℚ × ℚ) := [(3, 0)]

/-- Concrete zero flow field. -/
def flowW0 : List (ℚ × ℚ) := [(0, 0)]

/-- C1: for a frame pair whose maximal per-pixel L2 flow magnitude (over both
directions) is `m`, the scheduler emits exactly `max(⌈m⌉ - 1, 0)` intermediate
frames (conjunct 1, with `ℕ`-subtraction realising the `max` with `0`) plus
exactly one boundary frame (conjunct 2); conjunct 3 certifies that
`flow_mag_max_ceil` is the ceiling of the maximal magnitude, via the Galois
characterisation `N ≤ n ↔ m² ≤ n²` for every natural `n`; conjunct 4 is the
boundary law: for `m < 1` (equivalently `m² < 1`) no intermediates are
emitted. -/
theorem count_law (F01 F10 : List (ℚ × ℚ)) (t0 t1 : ℚ) :
    (upsample_adaptive F01 F10 t0 t1).length = flow_mag_max_ceil F01 F10 - 1
    ∧ (pair_frames F01 F10 t0 t1).length = (flow_mag_max_ceil F01 F10 - 1) + 1
    ∧ (∀ n : ℕ, flow_mag_max_ceil F01 F10 ≤ n ↔
        max (flow_mag_max_sq F01) (flow_mag_max_sq F10) ≤ (n : ℚ) ^ 2)
    ∧ (max (flow_mag_max_sq F01) (flow_mag_max_sq F10) < 1 →
        upsample_adaptive F01 F10 t0 t1 = []) := by
  refine ⟨length_upsample_adaptive F01 F10 t0 t1, length_pair_frames F01 F10 t0 t1,
    fun n => ceilSqrt_le_iff _ n, fun hlt => ?_⟩
  have h1 : flow_mag_max_ceil F01 F10 ≤ 1 := by
    rw [flow_mag_max_ceil, ceilSqrt_le_iff]
    calc max (flow_mag_max_sq F01) (flow_mag_max_sq F10) ≤ 1 := hlt.le
    _ ≤ ((1 : ℕ) : ℚ) ^ 2 := by norm_num
  have h0 : flow_mag_max_ceil F01 F10 - 1 = 0 := by omega
  simp [upsample_adaptive, h0]

lemma flow_mag_max_sq_flowW3 : flow_mag_max_sq flowW3 = 9 := by
  norm_num [flow_mag_max_sq, flowW3, magSq]

lemma flow_mag_max_sq_flowW0 : flow_mag_max_sq flowW0 = 0 := by
  norm_num [flow_mag_max_sq, flowW0, magSq]

lemma flow_mag_max_ceil_flowW3 : flow_mag_max_ceil flowW3 flowW0 = 3 := by
  rw [flow_mag_max_ceil, flow_mag_max_sq_flowW3, flow_mag_max_sq_flowW0,
    max_eq_left (by norm_num : (0 : ℚ) ≤ 9)]
  decide

lemma flow_mag_max_ceil_flowW0 : flow_mag_max_ceil flowW0 flowW0 = 0 := by
  rw [flow_mag_max_ceil, flow_mag_max_sq_flowW0, max_self]
  decide

/-- C1 witness: a concrete pair of one-pixel flow fields with maximal
magnitude `3` (so `N = 3`), for which the scheduler emits `3 - 1 = 2`
intermediates, and a concrete zero-magnitude pair, for which it emits none. -/
theorem count_law_witness :
    flow_mag_max_ceil flowW3 flowW0 = 3
    ∧ (upsample_adaptive flowW3 flowW0 0 1).length = 3 - 1
    ∧ (upsample_adaptive flowW0 flowW0 0 1) = [] :=
  ⟨flow_mag_max_ceil_flowW3,
    by rw [(count_law flowW3 flowW0 0 1).1, flow_mag_max_ceil_flowW3],
    (count_law flowW0 flowW0 0 1).2.2.2
      (by rw [flow_mag_max_sq_flowW0, max_self]; norm_num)⟩

lemma mem_upsample_adaptive {F01 F10 : List (ℚ × ℚ)} {t0 t1 : ℚ} {f : OutFrame}
    (hf : f ∈ upsample_adaptive F01 F10 t0 t1) :
    ∃ i : ℕ, 1 ≤ i ∧ i < flow_mag_max_ceil F01 F10 ∧
      f = { time := t0 + ((i : ℚ) / (flow_mag_max_ceil F01 F10 : ℚ)) * (t1 - t0)
            tag := i } := by
  rw [upsample_adaptive, List.mem_map] at hf
  obtain ⟨i, hi, rfl⟩ := hf
  rw [List.mem_range'_1] at hi
  exact ⟨i, hi.1, by omega, rfl⟩

lemma intermediate_time_gt {N i : ℕ} (hN : 0 < N) (h1 : 1 ≤ i) {t0 t1 : ℚ}
    (h : t0 < t1) : t0 < t0 + ((i : ℚ) / (N : ℚ)) * (t1 - t0) := by
  have hΔ : (0 : ℚ) < t1 - t0 := sub_pos.mpr h
  have hN' : (0 : ℚ) < (N : ℚ) := by exact_mod_cast hN
  have hi' : (0 : ℚ) < (i : ℚ) := by exact_mod_cast h1
  nlinarith [mul_pos (div_pos hi' hN') hΔ]

lemma intermediate_time_lt {N i : ℕ} (hN : 0 < N) (hiN : i < N) {t0 t1 : ℚ}
    (h : t0 < t1) : t0 + ((i : ℚ) / (N : ℚ)) * (t1 - t0) < t1 := by
  have hΔ : (0 : ℚ) < t1 - t0 := sub_pos.mpr h
  have hN' : (0 : ℚ) < (N : ℚ) := by exact_mod_cast hN
  have hx1 : (i : ℚ) / (N : ℚ) < 1 := by
    rw [div_lt_one hN']
    exact_mod_cast hiN
  nlinarith [mul_lt_mul_of_pos_right hx1 hΔ]

lemma intermediate_time_mono {N i j : ℕ} (hN : 0 < N) (hij : i < j) {t0 t1 : ℚ}
    (h : t0 < t1) :
    t0 + ((i : ℚ) / (N : ℚ)) * (t1 - t0) < t0 + ((j : ℚ) / (N : ℚ)) * (t1 - t0) := by
  have hΔ : (0 : ℚ) < t1 - t0 := sub_pos.mpr h
  have hN' : (0 : ℚ) < (N : ℚ) := by exact_mod_cast hN
  have hij' : (i : ℚ) / (N : ℚ) < (j : ℚ) / (N : ℚ) :=
    div_lt_div_of_pos_right (by exact_mod_cast hij) hN'
  nlinarith [mul_lt_mul_of_pos_right hij' hΔ]

lemma pair_frames_chain (F01 F10 : List (ℚ × ℚ)) (t0 t1 : ℚ) (h : t0 < t1) :
    List.Pairwise (fun a b : OutFrame => a.time < b.time)
      ({ time := t0, tag := 0 } :: upsample_adaptive F01 F10 t0 t1) := by
  constructor
  · intro f hf
    obtain ⟨i, h1, hiN, rfl⟩ := mem_upsample_adaptive hf
    exact intermediate_time_gt (by omega) h1 h
  · rcases Nat.eq_zero_or_pos (flow_mag_max_ceil F01 F10) with h0 | hN
    · simp [upsample_adaptive, h0]
    · rw [upsample_adaptive, List.pairwise_map]
      exact (List.pairwise_lt_range' 1 (flow_mag_max_ceil F01 F10 - 1)).imp
        (fun hab => intermediate_time_mono hN hab h)

lemma pair_frames_eq (F01 F10 : List (ℚ × ℚ)) (t0 t1 : ℚ) (h : t0 < t1) :
    pair_frames F01 F10 t0 t1 =
      { time := t0, tag := 0 } :: upsample_adaptive F01 F10 t0 t1 := by
  rw [pair_frames, sortFrames]
  exact List.Sorted.insertionSort_eq
    ((pair_frames_chain F01 F10 t0 t1 h).imp fun hab => le_of_lt hab)

/-- C2: for a pair with `t0 < t1`, every emitted timestamp (the boundary
frame's `t0` and every intermediate's `t0 + (i/N)·(t1−t0)`) lies in the
half-open interval `[t0, t1)`, and after the assembly sort the pair's
timestamp sequence is strictly increasing. -/
theorem timestamp_ordering (F01 F10 : List (ℚ × ℚ)) (t0 t1 : ℚ) (h : t0 < t1) :
    (∀ f ∈ pair_frames F01 F10 t0 t1, t0 ≤ f.time ∧ f.time < t1)
    ∧ ((pair_frames F01 F10 t0 t1).map OutFrame.time).Pairwise (fun a b => a < b) := by
  constructor
  · intro f hf
    rw [pair_frames_eq F01 F10 t0 t1 h] at hf
    rcases List.mem_cons.mp hf with rfl | hf'
    · exact ⟨le_refl t0, h⟩
    · obtain ⟨i, h1, hiN, rfl⟩ := mem_upsample_adaptive hf'
      exact ⟨(intermediate_time_gt (by omega) h1 h).le,
        intermediate_time_lt (by omega) hiN h⟩
  · rw [pair_frames_eq F01 F10 t0 t1 h, List.pairwise_map]
    exact pair_frames_chain F01 F10 t0 t1 h

/-- C2 witness: at the concrete pair `(flowW3, flowW0)` with `t0 = 0 < 1 = t1`
the sorted timestamp sequence is strictly increasing. -/
theorem timestamp_ordering_witness :
    ((pair_frames flowW3 flowW0 0 1).map OutFrame.time).Pairwise (fun a b => a < b) :=
  (timestamp_ordering flowW3 flowW0 0 1 (by decide)).2

/-- C7: the assembler concatenates the boundary frame (appended first) with
the scheduler's intermediates and sorts by timestamp; since for a well-formed
pair (`t0 < t1`) no intermediate timestamp equals `t0` (conjunct 3), the sort
returns the boundary frame first (conjuncts 1 and 2); conjunct 4 is the
stability guarantee of the embedded sort: whenever the head's timestamp is
less than *or equal to* every other timestamp — so in particular on a tie —
the head is kept first. -/
theorem stable_assembly (F01 F10 : List (ℚ × ℚ)) (t0 t1 : ℚ) (h : t0 < t1) :
    pair_frames F01 F10 t0 t1 =
        { time := t0, tag := 0 } :: upsample_adaptive F01 F10 t0 t1
    ∧ (pair_frames F01 F10 t0 t1).head? = some { time := t0, tag := 0 }
    ∧ (∀ f ∈ upsample_adaptive F01 F10 t0 t1, f.time ≠ t0)
    ∧ (∀ (b : OutFrame) (l : List OutFrame),
        (∀ f ∈ l, b.time ≤ f.time) → (sortFrames (b :: l)).head? = some b) := by
  refine ⟨pair_frames_eq F01 F10 t0 t1 h,
    by rw [pair_frames_eq F01 F10 t0 t1 h]; rfl, ?_, ?_⟩
  · intro f hf
    obtain ⟨i, h1, hiN, rfl⟩ := mem_upsample_adaptive hf
    exact ne_of_gt (intermediate_time_gt (by omega) h1 h)
  · intro b l hbl
    rw [sortFrames]
    cases hsort : List.insertionSort (fun a b => a.time ≤ b.time) l with
    | nil => simp [List.insertionSort, hsort, List.orderedInsert]
    | cons x xs =>
        have hx : x ∈ l := ((List.perm_insertionSort _ l).mem_iff).mp
          (by rw [hsort]; exact List.mem_cons_self x xs)
        simp [List.insertionSort, hsort, List.orderedInsert, hbl x hx]

/-- C7 witness: at the concrete pair `(flowW3, flowW0)` with `t0 = 0 < 1 = t1`
the head of the assembled list is the boundary frame. -/
theorem stable_assembly_witness :
    (pair_frames flowW3 flowW0 0 1).head? = some { time := 0, tag := 0 } :=
  (stable_assembly flowW3 flowW0 0 1 (by decide)).2.1

/-- First 2×2 flow field of the concrete scenario of C8: one pixel moves by
`(3, 0)` (L2 magnitude exactly `3.0`), the others are static. -/
def scenF01 : List (ℚ × ℚ) := [(3, 0), (0, 0), (0, 0), (0, 0)]

/-- Second 2×2 flow field of the concrete scenario of C8: all static. -/
def scenF10 : List (ℚ × ℚ) := [(0, 0), (0, 0), (0, 0), (0, 0)]

lemma flow_mag_max_ceil_scen : flow_mag_max_ceil scenF01 scenF10 = 3 := by
  have h1 : flow_mag_max_sq scenF01 = 9 := by
    norm_num [flow_mag_max_sq, scenF01, magSq]
  have h2 : flow_mag_max_sq scenF10 = 0 := by
    norm_num [flow_mag_max_sq, scenF10, magSq]
  rw [flow_mag_max_ceil, h1, h2, max_eq_left (by norm_num : (0 : ℚ) ≤ 9)]
  decide

/-- C8: for a single pair whose two 2×2 flow fields have maximal per-pixel
magnitude exactly `3.0`, the scheduler uses `N = 3` and emits exactly two
intermediate frames at fractional times `1/3` and `2/3`, with timestamps
`t0 + (t1−t0)/3` and `t0 + 2·(t1−t0)/3`, plus the boundary frame at `t0`,
for a total of three output frames for the pair. -/
theorem concrete_scenario (t0 t1 : ℚ) (h : t0 < t1) :
    flow_mag_max_ceil scenF01 scenF10 = 3
    ∧ upsample_adaptive scenF01 scenF10 t0 t1 =
        [{ time := t0 + (t1 - t0) / 3, tag := 1 },
         { time := t0 + 2 * (t1 - t0) / 3, tag := 2 }]
    ∧ pair_frames scenF01 scenF10 t0 t1 =
        [{ time := t0, tag := 0 },
         { time := t0 + (t1 - t0) / 3, tag := 1 },
         { time := t0 + 2 * (t1 - t0) / 3, tag := 2 }]
    ∧ (pair_frames scenF01 scenF10 t0 t1).length = 3 := by
  have hr : List.range' 1 (3 - 1) = [1, 2] := by decide
  have hInter : upsample_adaptive scenF01 scenF10 t0 t1 =
      [{ time := t0 + (t1 - t0) / 3, tag := 1 },
       { time := t0 + 2 * (t1 - t0) / 3, tag := 2 }] := by
    rw [upsample_adaptive, flow_mag_max_ceil_scen, hr]
    simp only [List.map_cons, List.map_nil, OutFrame.mk.injEq]
    norm_num
    constructor
    · ring
    · ring
  have hPair := pair_frames_eq scenF01 scenF10 t0 t1 h
  rw [hInter] at hPair
  exact ⟨flow_mag_max_ceil_scen, hInter, hPair, by rw [hPair]; rfl⟩

/-- C8 witness: at `t0 = 0`, `t1 = 1` the pair yields exactly three output
frames. -/
theorem concrete_scenario_witness :
    (pair_frames scenF01 scenF10 0 1).length = 3 :=
  (concrete_scenario 0 1 (by decide)).2.2.2

/-- Quadratic coefficient `temp = -t * (1 - t)` of
`Upsampler._upsample_adaptive`. -/
def temp (t : ℚ) : ℚ := -t * (1 - t)

/-- Flow-interpolation coefficients `fCoeff = [temp, t*t, (1-t)*(1-t), temp]`
of `Upsampler._upsample_adaptive`. -/
def fCoeff (t : ℚ) : List ℚ := [temp t, t * t, (1 - t) * (1 - t), temp t]

/-- Temporal blend weights `wCoeff = [1 - t, t]` of
`Upsampler._upsample_adaptive`. -/
def wCoeff (t : ℚ) : List ℚ := [1 - t, t]

/-- C4: for every fractional time `t` (in particular every `t = i/N` used by
the scheduler), the temporal blend weights sum to one,
`wCoeff[0] + wCoeff[1] = (1-t) + t = 1`; the flow-interpolation coefficients
equal the quadratic partition `[-t·(1-t), t², (1-t)², -t·(1-t)]`; its first
and last entries both equal `temp`; and `temp` is symmetric under exchanging
`t` and `1 - t`. -/
theorem coefficient_identity (t : ℚ) :
    (wCoeff t).getD 0 0 + (wCoeff t).getD 1 0 = 1
    ∧ fCoeff t = [-(t * (1 - t)), t ^ 2, (1 - t) ^ 2, -(t * (1 - t))]
    ∧ (fCoeff t).getD 0 0 = temp t
    ∧ (fCoeff t).getD 3 0 = temp t
    ∧ temp (1 - t) = temp t := by
  refine ⟨?_, ?_, ?_, ?_, ?_⟩
  · simp only [wCoeff, List.getD]
    norm_num
  · simp only [fCoeff, temp, List.cons.injEq, and_true]
    refine ⟨by ring, by ring, by ring, by ring⟩
  · simp [fCoeff, List.getD]
  · simp [fCoeff, List.getD]
  · simp only [temp]
    ring

/-- `V_t_1 = 1 - V_t_0`, the complementary visibility weight
(`Upsampler._upsample_adaptive`, line `V_t_1 = 1 - V_t_0`). -/
def V_t_1 (v0 : ℚ) : ℚ := 1 - v0

/-- Denominator of the final blend: the combined weight
`wCoeff[0] * V_t_0 + wCoeff[1] * V_t_1`, exactly as in the source, with no
epsilon, clamp, or other guard. -/
def blend_den (t v0 : ℚ) : ℚ :=
  (wCoeff t).getD 0 0 * v0 + (wCoeff t).getD 1 0 * V_t_1 v0

/-- Numerator of the final blend:
`wCoeff[0] * V_t_0 * g_I0_F_t_0_f + wCoeff[1] * V_t_1 * g_I1_F_t_1_f`,
with the two warped refined estimates abstracted to per-pixel scalars. -/
def blend_num (t v0 g0 g1 : ℚ) : ℚ :=
  (wCoeff t).getD 0 0 * v0 * g0 + (wCoeff t).getD 1 0 * V_t_1 v0 * g1

/-- The blended output pixel `Ft_p`: a bare division of the weighted sum by
the combined weight (source line `Ft_p = (...) / (...)`).  In the rational
embedding, like in the unguarded source, division by a vanished denominator is
not intercepted; it yields the junk value `0`. -/
def Ft_p (t v0 g0 g1 : ℚ) : ℚ := blend_num t v0 g0 g1 / blend_den t v0

/-- C6: the final blend divides by the combined weight
`wCoeff[0]·V_t_0 + wCoeff[1]·V_t_1` itself — no epsilon, clamp, or other
guard is applied (conjunct 2: the result is literally the numerator divided
by the vanished denominator) — and for any input at which both
visibility-weighted terms vanish, that denominator is exactly zero
(conjunct 1), so the division is a division by zero (conjunct 3 gives the
junk value the rational embedding assigns to it). -/
theorem unguarded_blend_division (t v0 g0 g1 : ℚ)
    (h0 : (wCoeff t).getD 0 0 * v0 = 0)
    (h1 : (wCoeff t).getD 1 0 * V_t_1 v0 = 0) :
    blend_den t v0 = 0
    ∧ Ft_p t v0 g0 g1 = blend_num t v0 g0 g1 / 0
    ∧ Ft_p t v0 g0 g1 = 0 := by
  have hd : blend_den t v0 = 0 := by rw [blend_den, h0, h1, add_zero]
  exact ⟨hd, by rw [Ft_p, hd], by rw [Ft_p, hd, div_zero]⟩

/-- C6 witness: at `t = 0`, `V_t_0 = 0` both visibility-weighted terms vanish
and the division is by zero. -/
theorem unguarded_blend_division_witness :
    blend_den 0 0 = 0 ∧ Ft_p 0 0 5 7 = 0 :=
  ⟨(unguarded_blend_division 0 0 5 7 (by norm_num [wCoeff, List.getD])
      (by norm_num [wCoeff, V_t_1, List.getD])).1,
   (unguarded_blend_division 0 0 5 7 (by norm_num [wCoeff, List.getD])
      (by norm_num [wCoeff, V_t_1, List.getD])).2.2⟩

/-- Elementwise `np.clip(x, lo, hi)`. -/
def np_clip (x lo hi : ℚ) : ℚ := min (max x lo) hi

/-- The `astype(np.uint8)` cast applied to a clipped value: truncation (which
agrees with the floor on the nonnegative clipped range) followed by the
wrap-around of an unsigned 8-bit integer. -/
def to_uint8 (x : ℚ) : ℕ := ⌊x⌋.toNat % 256

/-- Per-pixel content of `Upsampler._to_numpy_image`:
`np.clip(255 * img, 0, 255).astype(np.uint8)` (the subsequent transpose only
reorders axes and does not change pixel values). -/
def to_numpy_image (img : List ℚ) : List ℕ :=
  img.map fun v => to_uint8 (np_clip (255 * v) 0 255)

lemma np_clip_bounds (x : ℚ) : 0 ≤ np_clip x 0 255 ∧ np_clip x 0 255 ≤ 255 :=
  ⟨le_min (le_max_right x 0) (by norm_num), min_le_right _ _⟩

/-- C10: the conversion to the persistable pixel layout maps each pixel value
`v` to `clip(255·v, 0, 255)` cast to an unsigned 8-bit integer; every pixel
value written lies in `[0, 255]` (conjunct 1) and the cast never wraps
around — the mod-256 of the unsigned cast is the identity on the clipped
value (conjunct 2), regardless of out-of-range blend results `v`. -/
theorem output_range_clamp (img : List ℚ) :
    (∀ b ∈ to_numpy_image img, b ≤ 255)
    ∧ (∀ v : ℚ, to_uint8 (np_clip (255 * v) 0 255)
        = ⌊np_clip (255 * v) 0 255⌋.toNat) := by
  have key : ∀ v : ℚ, ⌊np_clip (255 * v) 0 255⌋.toNat ≤ 255 := by
    intro v
    have h := (np_clip_bounds (255 * v)).2
    have : ⌊np_clip (255 * v) 0 255⌋ ≤ 255 := by
      calc ⌊np_clip (255 * v) 0 255⌋ ≤ ⌊(255 : ℚ)⌋ := Int.floor_le_floor h
      _ = 255 := by norm_num
    exact Int.toNat_le.mpr (by exact_mod_cast this)
  constructor
  · intro b hb
    rw [to_numpy_image, List.mem_map] at hb
    obtain ⟨v, _, rfl⟩ := hb
    rw [to_uint8]
    exact le_trans (Nat.mod_le _ _) (key v)
  · intro v
    rw [to_uint8]
    exact Nat.mod_eq_of_lt (lt_of_le_of_lt (key v) (by norm_num))

/-- C10 witness: the over-range pixel value `2` (denormalised `510`) is
clipped to `255` and written without wraparound. -/
theorem output_range_clamp_witness :
    to_uint8 (np_clip (255 * 2) 0 255) = ⌊np_clip ((255 : ℚ) * 2) 0 255⌋.toNat
    ∧ ⌊np_clip ((255 : ℚ) * 2) 0 255⌋.toNat ≤ 255 :=
  ⟨(output_range_clamp []).2 2,
   Int.toNat_le.mpr (Int.floor_le_floor (min_le_right _ _) |>.trans (by norm_num))⟩

/-- The warp-resource cache `self.flowBackWarp_dict`: an association list from
`(width, height)` keys to resource identities, together with the identity the
next `backWarp(width, height, device)` construction would get.  Resource
instances are modelled by their identity `ℕ`: the source stores each
constructed `backWarp` module once, so two equal identities mean the same
stored instance. -/
structure WarpCache where
  entries : List ((ℕ × ℕ) × ℕ)
  nextId : ℕ
deriving DecidableEq

/-- The empty cache `self.flowBackWarp_dict = dict()` set up by
`Upsampler._load_net_from_checkpoint`. -/
def initCache : WarpCache := { entries := [], nextId := 0 }

/-- Python `dict.get`: the stored value for the key, if any. -/
def dict_get (entries : List ((ℕ × ℕ) × ℕ)) (k : ℕ × ℕ) : Option ℕ :=
  (entries.find? fun e => e.1 == k).map fun e => e.2

/-- `Upsampler.get_flowBackWarp_module`: look up `(width, height)`; on a miss
construct a fresh resource (a fresh identity), store it, and return it; on a
hit return the stored instance and leave the cache untouched. -/
def get_flowBackWarp_module (c : WarpCache) (width height : ℕ) : ℕ × WarpCache :=
  match dict_get c.entries (width, height) with
  | some m => (m, c)
  | none =>
      (c.nextId,
        { entries := ((width, height), c.nextId) :: c.entries
          nextId := c.nextId + 1 })

/-- Well-formedness of the cache: every stored identity precedes the next
fresh one, and identities determine entries (no two distinct entries share an
identity).  It holds for the empty cache and is preserved by every call. -/
def WFCache (c : WarpCache) : Prop :=
  (∀ e ∈ c.entries, e.2 < c.nextId)
  ∧ ∀ e1 ∈ c.entries, ∀ e2 ∈ c.entries, e1.2 = e2.2 → e1 = e2

lemma WFCache_initCache : WFCache initCache := by
  constructor
  · intro e he
    simp [initCache] at he
  · intro e1 he1
    simp [initCache] at he1

lemma dict_get_some {entries : List ((ℕ × ℕ) × ℕ)} {k : ℕ × ℕ} {m : ℕ}
    (hd : dict_get entries k = some m) :
    ∃ e ∈ entries, e.1 = k ∧ e.2 = m := by
  rw [dict_get, Option.map_eq_some'] at hd
  obtain ⟨e, hfind, he2⟩ := hd
  refine ⟨e, List.mem_of_find?_eq_some hfind, ?_, he2⟩
  have := List.find?_some hfind
  simpa using this

lemma dict_get_cons_self {w h m : ℕ} {entries : List ((ℕ × ℕ) × ℕ)} :
    dict_get (((w, h), m) :: entries) (w, h) = some m := by
  rw [dict_get, List.find?_cons_of_pos _ (by simp)]
  rfl

lemma dict_get_cons_ne {e : (ℕ × ℕ) × ℕ} {entries : List ((ℕ × ℕ) × ℕ)}
    {k : ℕ × ℕ} (hne : e.1 ≠ k) :
    dict_get (e :: entries) k = dict_get entries k := by
  rw [dict_get, dict_get, List.find?_cons_of_neg _ (by simp [hne])]

lemma get_stores (c : WarpCache) (w h : ℕ) :
    dict_get ((get_flowBackWarp_module c w h).2).entries (w, h)
      = some (get_flowBackWarp_module c w h).1 := by
  cases hd : dict_get c.entries (w, h) with
  | some m => simp [get_flowBackWarp_module, hd]
  | none => simp [get_flowBackWarp_module, hd, dict_get_cons_self]

/-- C5: starting from a well-formed cache, the first call for `(w, h)`
constructs and stores a resource (conjunct 2: the key is mapped to the
returned instance afterwards); an identical second call returns the very same
instance and cache, constructing nothing (conjunct 1); and a call with a
different key `(w', h')` never collides with it: it returns a distinct
instance (conjunct 3) and does not overwrite the first entry — afterwards
both keys are still mapped to their respective instances (conjuncts 4
and 5). -/
theorem cache_idempotence (c : WarpCache) (w h w' h' : ℕ)
    (hwf : WFCache c) (hne : (w, h) ≠ (w', h')) :
    get_flowBackWarp_module ((get_flowBackWarp_module c w h).2) w h
        = get_flowBackWarp_module c w h
    ∧ dict_get ((get_flowBackWarp_module c w h).2).entries (w, h)
        = some (get_flowBackWarp_module c w h).1
    ∧ (get_flowBackWarp_module ((get_flowBackWarp_module c w h).2) w' h').1
        ≠ (get_flowBackWarp_module c w h).1
    ∧ dict_get ((get_flowBackWarp_module ((get_flowBackWarp_module c w h).2) w' h').2).entries
        (w, h) = some (get_flowBackWarp_module c w h).1
    ∧ dict_get ((get_flowBackWarp_module ((get_flowBackWarp_module c w h).2) w' h').2).entries
        (w', h')
        = some (get_flowBackWarp_module ((get_flowBackWarp_module c w h).2) w' h').1 := by
  have hstore1 := get_stores c w h
  have hstore2 := get_stores ((get_flowBackWarp_module c w h).2) w' h'
  have hidem : get_flowBackWarp_module ((get_flowBackWarp_module c w h).2) w h
      = get_flowBackWarp_module c w h := by
    rw [get_flowBackWarp_module, hstore1]
  refine ⟨hidem, hstore1, ?_, ?_, hstore2⟩
  · -- distinct keys yield distinct resource identities
    cases hd1 : dict_get c.entries (w, h) with
    | some m1 =>
        have hc1 : get_flowBackWarp_module c w h = (m1, c) := by
          rw [get_flowBackWarp_module, hd1]
        rw [hc1]
        obtain ⟨e1, he1, he1k, he1v⟩ := dict_get_some hd1
        cases hd2 : dict_get c.entries (w', h') with
        | some m2 =>
            have hc2 : get_flowBackWarp_module c w' h' = (m2, c) := by
              rw [get_flowBackWarp_module, hd2]
            rw [hc2]
            obtain ⟨e2, he2, he2k, he2v⟩ := dict_get_some hd2
            intro hm
            have hm' : m2 = m1 := hm
            apply hne
            rw [← he1k, ← he2k, hwf.2 e1 he1 e2 he2 (by rw [he1v, he2v, hm'])]
        | none =>
            have hc2 : (get_flowBackWarp_module c w' h').1 = c.nextId := by
              rw [get_flowBackWarp_module, hd2]
            rw [hc2]
            have : m1 < c.nextId := he1v ▸ hwf.1 e1 he1
            omega
    | none =>
        have hc1 : get_flowBackWarp_module c w h
            = (c.nextId,
                { entries := ((w, h), c.nextId) :: c.entries
                  nextId := c.nextId + 1 }) := by
          rw [get_flowBackWarp_module, hd1]
        rw [hc1]
        cases hd2 : dict_get (((w, h), c.nextId) :: c.entries) (w', h') with
        | some m2 =>
            have hc2 : get_flowBackWarp_module
                { entries := ((w, h), c.nextId) :: c.entries
                  nextId := c.nextId + 1 } w' h'
                = (m2,
                    { entries := ((w, h), c.nextId) :: c.entries
                      nextId := c.nextId + 1 }) := by
              rw [get_flowBackWarp_module]
              simp only at hd2 ⊢
              rw [hd2]
            rw [hc2]
            have hd2' : dict_get c.entries (w', h') = some m2 := by
              rwa [dict_get_cons_ne (by simpa using hne)] at hd2
            obtain ⟨e2, he2, he2k, he2v⟩ := dict_get_some hd2'
            have : m2 < c.nextId := he2v ▸ hwf.1 e2 he2
            omega
        | none =>
            have hc2 : (get_flowBackWarp_module
                { entries := ((w, h), c.nextId) :: c.entries
                  nextId := c.nextId + 1 } w' h').1 = c.nextId + 1 := by
              rw [get_flowBackWarp_module]
              simp only at hd2 ⊢
              rw [hd2]
            rw [hc2]
            omega
  · -- the second key's call does not overwrite the first key's entry
    cases hd2 : dict_get ((get_flowBackWarp_module c w h).2).entries (w', h') with
    | some m2 =>
        have : (get_flowBackWarp_module ((get_flowBackWarp_module c w h).2) w' h').2
            = (get_flowBackWarp_module c w h).2 := by
          rw [get_flowBackWarp_module, hd2]
        rw [this]
        exact hstore1
    | none =>
        have : (get_flowBackWarp_module ((get_flowBackWarp_module c w h).2) w' h').2.entries
            = ((w', h'), ((get_flowBackWarp_module c w h).2).nextId)
              :: ((get_flowBackWarp_module c w h).2).entries := by
          rw [get_flowBackWarp_module, hd2]
        rw [this, dict_get_cons_ne (by simpa using (Ne.symm hne))]
        exact hstore1

/-- C5 witness: starting from the empty cache, a repeated call for
`(64, 48)` returns the identical result, and a call for `(32, 24)` yields a
distinct resource. -/
theorem cache_idempotence_witness :
    get_flowBackWarp_module ((get_flowBackWarp_module initCache 64 48).2) 64 48
        = get_flowBackWarp_module initCache 64 48
    ∧ (get_flowBackWarp_module ((get_flowBackWarp_module initCache 64 48).2) 32 24).1
        ≠ (get_flowBackWarp_module initCache 64 48).1 :=
  ⟨(cache_idempotence initCache 64 48 32 24 WFCache_initCache (by decide)).1,
   (cache_idempotence initCache 64 48 32 24 WFCache_initCache (by decide)).2.2.1⟩

/-- A Python value as dispatched on by `Upsampler._move_to_device`: a neural
module, a tensor (each carrying its current device placement), a list of
values, or a value of any other type (carrying a description of its type and
its untouched placement). -/
inductive PyValue where
  | module (dev : String)
  | tensor (dev : String)
  | pylist (xs : List PyValue)
  | other (ty : String) (dev : String)

/-- The warning text of the final branch of `Upsampler._move_to_device`. -/
def unsupported_warning : String :=
  "Instance type not supported! Input remains on current device!"

/-- The warning emitted at the top of every `_move_to_device` call when CUDA
is unavailable yet a non-CPU device is requested. -/
def cuda_warning (cuda_available : Bool) (device : String) : List String :=
  if cuda_available = false ∧ ¬ device = "cpu" then
    ["CUDA not available! Input remains on CPU!"]
  else []

mutual
/-- `Upsampler._move_to_device`: modules and tensors are relocated to the
requested device; lists are recursed into element-wise (each recursive call
re-checking CUDA availability, as in the source); any other value produces a
non-fatal warning and is returned unchanged on its original placement.  The
returned second component collects the warnings issued by `warnings.warn`;
the function is total — no branch raises. -/
def move_to_device (cuda_available : Bool) (device : String) :
    PyValue → PyValue × List String
  | PyValue.module _ => (PyValue.module device, cuda_warning cuda_available device)
  | PyValue.tensor _ => (PyValue.tensor device, cuda_warning cuda_available device)
  | PyValue.pylist xs =>
      let r := move_children cuda_available device xs
      (PyValue.pylist r.1, cuda_warning cuda_available device ++ r.2)
  | PyValue.other ty dev =>
      (PyValue.other ty dev,
        cuda_warning cuda_available device ++ [unsupported_warning])

/-- Element-wise recursion of `_move_to_device` over a Python list
(`[cls._move_to_device(v, ...) for v in _input]`). -/
def move_children (cuda_available : Bool) (device : String) :
    List PyValue → List PyValue × List String
  | [] => ([], [])
  | x :: xs =>
      let rx := move_to_device cuda_available device x
      let rxs := move_children cuda_available device xs
      (rx.1 :: rxs.1, rx.2 ++ rxs.2)
end

lemma move_children_length (cuda_available : Bool) (device : String)
    (xs : List PyValue) :
    (move_children cuda_available device xs).1.length = xs.length := by
  induction xs with
  | nil => rfl
  | cons x xs ih => simp [move_children, ih]

/-- C9: when `_move_to_device` receives a value that is neither a module, a
tensor, nor a list, it returns the value unchanged on its original placement
(conjunct 1) while emitting a warning — a non-fatal signal on the warning
stream of an otherwise normally-returning total function (conjunct 2); for a
list it recurses element-wise and returns a list of the same length
(conjunct 3). -/
theorem device_move_degradation (cuda_available : Bool)
    (device ty dev : String) (xs : List PyValue) :
    (move_to_device cuda_available device (PyValue.other ty dev)).1
        = PyValue.other ty dev
    ∧ unsupported_warning
        ∈ (move_to_device cuda_available device (PyValue.other ty dev)).2
    ∧ (move_to_device cuda_available device (PyValue.pylist xs)).1
        = PyValue.pylist (move_children cuda_available device xs).1
    ∧ (move_children cuda_available device xs).1.length = xs.length := by
  refine ⟨rfl, ?_, rfl, move_children_length cuda_available device xs⟩
  rw [move_to_device]
  exact List.mem_append_right _ (List.mem_singleton_self _)

/-- The state threaded through `Upsampler.upsample_sequence`: the accumulated
timestamp log `timestamps_list`, the frame indices used for the written
filenames in write order, and the global index counter `idx`. -/
structure SeqState where
  timestamps_list : List ℚ
  written : List ℕ
  idx : ℕ
deriving DecidableEq

/-- One frame pair of a sequence, as consumed by `upsample_sequence`: its two
flow fields (produced by the opaque flow network from the images) and its two
timestamps. -/
structure PairInput where
  F01 : List (ℚ × ℚ)
  F10 : List (ℚ × ℚ)
  t0 : ℚ
  t1 : ℚ
deriving DecidableEq

/-- The number of intermediate frames the scheduler produces for a pair. -/
def numIntermediates (p : PairInput) : ℕ := flow_mag_max_ceil p.F01 p.F10 - 1

/-- The body of the pair loop of `Upsampler.upsample_sequence`: assemble the
pair's sorted frames, extend the timestamp log, write each frame under the
running global index (`self._write_img(frame, idx, ...)`; `idx += 1`). -/
def process_pair (s : SeqState) (p : PairInput) : SeqState :=
  { timestamps_list :=
      s.timestamps_list ++ (pair_frames p.F01 p.F10 p.t0 p.t1).map OutFrame.time
    written := s.written ++ List.range' s.idx (pair_frames p.F01 p.F10 p.t0 p.t1).length
    idx := s.idx + (pair_frames p.F01 p.F10 p.t0 p.t1).length }

/-- `Upsampler.upsample_sequence` over a whole sequence of pairs: the index
counter starts at `0`, the logs start empty, and neither is reset between
pairs. -/
def upsample_sequence (pairs : List PairInput) : SeqState :=
  pairs.foldl process_pair { timestamps_list := [], written := [], idx := 0 }

lemma upsample_sequence_invariant (pairs : List PairInput) (s : SeqState) :
    (pairs.foldl process_pair s).idx
        = s.idx + (pairs.length + (pairs.map numIntermediates).sum)
    ∧ (pairs.foldl process_pair s).written
        = s.written ++ List.range' s.idx (pairs.length + (pairs.map numIntermediates).sum)
    ∧ (pairs.foldl process_pair s).timestamps_list.length
        = s.timestamps_list.length + (pairs.length + (pairs.map numIntermediates).sum) := by
  induction pairs generalizing s with
  | nil => simp
  | cons p pairs ih =>
      have hlen : (pair_frames p.F01 p.F10 p.t0 p.t1).length = numIntermediates p + 1 := by
        rw [length_pair_frames, numIntermediates]
      obtain ⟨ih1, ih2, ih3⟩ := ih (process_pair s p)
      refine ⟨?_, ?_, ?_⟩
      · rw [List.foldl_cons, ih1]
        simp only [process_pair, hlen, List.map_cons, List.sum_cons, List.length_cons]
        omega
      · rw [List.foldl_cons, ih2]
        simp only [process_pair, hlen, List.map_cons, List.sum_cons, List.length_cons,
          List.append_assoc]
        congr 1
        have := List.range'_append s.idx (numIntermediates p + 1)
          (pairs.length + (pairs.map numIntermediates).sum) 1
        simp only [one_mul] at this
        rw [this]
        congr 1
        omega
      · rw [List.foldl_cons, ih3]
        simp only [process_pair, hlen, List.map_cons, List.sum_cons, List.length_cons,
          List.length_append, List.length_map]
        omega

/-- C3 (amended): across an entire sequence of `P` pairs the final emitted
frame count equals `P` (one boundary frame per pair — the code appends the
pair's start frame for every pair, not only the first) plus the sum over all
pairs of their intermediate-frame counts (conjunct 1); the frame indices used
for the written filenames are exactly `0, 1, 2, …` in write order — a
contiguous run starting at `0`, never reset within the sequence (conjunct 2);
and the timestamp log holds exactly one timestamp per written frame, appended
in the same order as the frame indices (conjunct 3). -/
theorem global_index_continuity (pairs : List PairInput) :
    (upsample_sequence pairs).idx
        = pairs.length + (pairs.map numIntermediates).sum
    ∧ (upsample_sequence pairs).written = List.range (upsample_sequence pairs).idx
    ∧ (upsample_sequence pairs).timestamps_list.length = (upsample_sequence pairs).idx := by
  obtain ⟨h1, h2, h3⟩ := upsample_sequence_invariant pairs
    { timestamps_list := [], written := [], idx := 0 }
  rw [upsample_sequence]
  refine ⟨by simpa using h1, ?_, by simp at h1 h3; rw [h1, h3]⟩
  rw [h2, h1]
  simp [List.range_eq_range']

/-- A concrete pair with zero flow in both directions: the scheduler emits no
intermediates for it, so only its boundary frame is written. -/
def zero_pair : PairInput := { F01 := [(0, 0)], F10 := [(0, 0)], t0 := 0, t1 := 1 }

lemma numIntermediates_zero_pair : numIntermediates zero_pair = 0 := by
  have h0 : flow_mag_max_sq [((0 : ℚ), (0 : ℚ))] = 0 := by
    norm_num [flow_mag_max_sq, magSq]
  rw [numIntermediates, zero_pair]
  simp only
  rw [flow_mag_max_ceil, h0, max_self]
  decide

lemma pair_frames_zero_pair :
    pair_frames zero_pair.F01 zero_pair.F10 zero_pair.t0 zero_pair.t1
      = [{ time := 0, tag := 0 }] := by
  have h := pair_frames_eq zero_pair.F01 zero_pair.F10 zero_pair.t0 zero_pair.t1
    (by rw [zero_pair]; norm_num)
  have hN : flow_mag_max_ceil zero_pair.F01 zero_pair.F10 = 0 := by
    have := numIntermediates_zero_pair
    rw [numIntermediates] at this
    have h9 : flow_mag_max_sq [((0 : ℚ), (0 : ℚ))] = 0 := by
      norm_num [flow_mag_max_sq, magSq]
    rw [zero_pair]
    simp only
    rw [flow_mag_max_ceil, h9, max_self]
    decide
  rw [h, upsample_adaptive, hN]
  rfl

/-- C3 counterexample: for the two-pair sequence `[zero_pair, zero_pair]`
(each pair emitting only its boundary frame) the code writes `2` frames — one
boundary frame per pair — whereas the claimed formula
`boundary-frame-of-the-first-pair (1) + sum of intermediate counts (0)`
predicts `1`. -/
theorem global_index_counterexample :
    (upsample_sequence [zero_pair, zero_pair]).idx = 2
    ∧ 1 + (([zero_pair, zero_pair].map numIntermediates).sum) = 1
    ∧ (upsample_sequence [zero_pair, zero_pair]).idx
        ≠ 1 + (([zero_pair, zero_pair].map numIntermediates).sum) := by
  have hidx : (upsample_sequence [zero_pair, zero_pair]).idx = 2 := by
    rw [upsample_sequence]
    simp only [List.foldl_cons, List.foldl_nil, process_pair, pair_frames_zero_pair]
    rfl
  have hsum : 1 + (([zero_pair, zero_pair].map numIntermediates).sum) = 1 := by
    simp [numIntermediates_zero_pair]
  exact ⟨hidx, hsum, by rw [hidx, hsum]; omega⟩
